import Mathlib

/-!
Verification development for the moli repository (a declarative project-tree
generator).  The configuration data model and its accessors are embedded from
src/project_management/config/models.rs; the CLI helpers for `moli new` are
embedded from src/cli/command/new.rs.  The generation engine itself
(generator.rs, file_builder.rs, directory_builder.rs, validator.rs) is declared
in src/code_generation/core/mod.rs but its sources are not part of the audited
tree, so those components are modelled from the specification, as flagged on
each definition.

Text is represented as `List Char`; the filesystem as an association list from
paths to file contents.
-/

namespace MoliVerify

/-! ## Data model (src/project_management/config/models.rs) -/

/-- Individual code file (struct CodeFile): declared name and optional
visibility hint (`r#pub`). -/
structure CodeFile where
  name : List Char
  pubSetting : Option (List Char)
deriving DecidableEq, Repr

mutual

/-- Module or directory structure (struct Module): name, optional visibility
hint, child modules (`tree`) and declared files (`file`). -/
inductive Module where
  | mk (name : List Char) (pubSetting : Option (List Char))
       (tree : ModuleList) (file : List CodeFile)

/-- A list of child modules.  A separate mutual inductive (rather than
`List Module`) so that all recursions over the tree are structural and
evaluate inside the kernel. -/
inductive ModuleList where
  | nil
  | cons (m : Module) (ms : ModuleList)

end

/-- Individual project configuration (struct Project). -/
structure Project where
  name : List Char
  root : Bool
  lang : List Char
  file : List CodeFile
  spec : ModuleList

/-- v2 moli.yml configuration root (struct MoliConfig). -/
structure MoliConfig where
  projects : List Project

def Module.name : Module → List Char
  | .mk n _ _ _ => n

def Module.pubSetting : Module → Option (List Char)
  | .mk _ v _ _ => v

def Module.subtree : Module → ModuleList
  | .mk _ _ t _ => t

def Module.files : Module → List CodeFile
  | .mk _ _ _ f => f

/-- MoliConfig::root_project — `self.projects.iter().find(|p| p.root)`. -/
def MoliConfig.root_project (c : MoliConfig) : Option Project :=
  c.projects.find? (fun p => p.root)

/-- MoliConfig::sub_projects — `self.projects.iter().filter(|p| !p.root)`. -/
def MoliConfig.sub_projects (c : MoliConfig) : List Project :=
  c.projects.filter (fun p => !p.root)

/-- MoliConfig::is_single_project — `self.root_project().is_some()`. -/
def MoliConfig.is_single_project (c : MoliConfig) : Bool :=
  c.root_project.isSome

/-- The extension match inside CodeFile::filename_with_extension
(models.rs lines 137-145), including the `"txt"` fallback arm. -/
def extensionForLanguage (language : List Char) : List Char :=
  if language = "rust".toList then "rs".toList
  else if language = "go".toList then "go".toList
  else if language = "python".toList then "py".toList
  else if language = "javascript".toList then "js".toList
  else if language = "typescript".toList then "ts".toList
  else if language = "markdown".toList then "md".toList
  else "txt".toList

/-- CodeFile::filename_with_extension (models.rs lines 131-148): a name that
already contains `'.'` is used verbatim, otherwise the language-specific
extension is appended after a dot. -/
def CodeFile.filename_with_extension (f : CodeFile) (language : List Char) : List Char :=
  if f.name.contains '.' then f.name
  else f.name ++ '.' :: extensionForLanguage language

/-! ## Error taxonomy (spec section 7) -/

/-- Modelled from the spec: the error taxonomy of section 7 for the parts of
the generator (validator.rs, file_builder.rs, generator.rs) whose sources are
not in the audited tree.  `UnsupportedLanguage`, `NameCollision` and
`MarkerMismatch`; `IoFailure` is not representable in this embedding. -/
inductive GenError where
  | unsupportedLanguage
  | nameCollision
  | markerMismatch
deriving DecidableEq, Repr

/-! ## MarkerSplicer (spec section 4.2; file_builder.rs is not in the audited tree) -/

/-- Whether `pat` occurs in `text` starting at index `i`. -/
def occursAt (pat text : List Char) (i : Nat) : Bool :=
  ((text.drop i).take pat.length) == pat

/-- All indices at which `pat` occurs in `text`. -/
def occIdxs (pat text : List Char) : List Nat :=
  (List.range (text.length + 1)).filter (occursAt pat text)

/-- Number of occurrences of `pat` in `text`. -/
def countOcc (pat text : List Char) : Nat :=
  (occIdxs pat text).length

/-- Index of the first occurrence of `pat` in `text`, if any. -/
def findFirst (pat text : List Char) : Option Nat :=
  (List.range (text.length + 1)).find? (occursAt pat text)

/-- Modelled from the spec: `splice` of MarkerSplicer (section 4.2).  Scan for
exactly one occurrence of the start marker followed later by exactly one
occurrence of the end marker; replace the substring strictly between them with
`body`; fail with `MarkerMismatch` otherwise. -/
def splice (content sm em body : List Char) : Except GenError (List Char) :=
  match findFirst sm content with
  | none => .error .markerMismatch
  | some i =>
    if countOcc sm content = 1 then
      match findFirst em (content.drop (i + sm.length)) with
      | none => .error .markerMismatch
      | some j =>
        if countOcc em (content.drop (i + sm.length)) = 1 then
          .ok (content.take (i + sm.length) ++ body ++ (content.drop (i + sm.length)).drop j)
        else .error .markerMismatch
    else .error .markerMismatch

/-- Exactly one well-placed marker pair: a decomposition with a unique start
marker and a unique end marker after it. -/
def wellFormedMarkers (sm em c : List Char) : Prop :=
  ∃ pre mid post, c = pre ++ sm ++ mid ++ em ++ post ∧
    countOcc sm c = 1 ∧ countOcc em (mid ++ em ++ post) = 1

theorem find?_eq_head?_filter {α : Type} (p : α → Bool) (l : List α) :
    l.find? p = (l.filter p).head? := by
  induction l with
  | nil => rfl
  | cons a l ih =>
    cases h : p a
    · rw [List.find?_cons_of_neg _ (by simp [h]), List.filter_cons_of_neg (by simp [h]), ih]
    · rw [List.find?_cons_of_pos _ h, List.filter_cons_of_pos h]
      rfl

theorem occursAt_decomp {pat text : List Char} {i : Nat}
    (h : occursAt pat text i = true) :
    text = text.take i ++ pat ++ text.drop (i + pat.length) := by
  have h' : (text.drop i).take pat.length = pat := by
    simpa [occursAt] using h
  conv_lhs => rw [← List.take_append_drop i text,
    ← List.take_append_drop pat.length (text.drop i)]
  rw [h', List.drop_drop, List.append_assoc]

theorem occursAt_append (pre suf pat : List Char) :
    occursAt pat (pre ++ (pat ++ suf)) pre.length = true := by
  have h1 : (pre ++ (pat ++ suf)).drop pre.length = pat ++ suf :=
    List.drop_left pre (pat ++ suf)
  simp [occursAt, h1, List.take_left]

theorem findFirst_eq_of_unique {pat text : List Char} {i : Nat}
    (h1 : countOcc pat text = 1) (h2 : occursAt pat text i = true)
    (h3 : i ≤ text.length) : findFirst pat text = some i := by
  have hm : i ∈ occIdxs pat text :=
    List.mem_filter.mpr ⟨List.mem_range.mpr (by omega), h2⟩
  obtain ⟨a, ha⟩ := List.length_eq_one.mp h1
  have hi : i = a := by
    rw [ha] at hm
    simpa using hm
  have heq : findFirst pat text = (occIdxs pat text).head? :=
    find?_eq_head?_filter _ _
  rw [heq, ha, hi]
  rfl

theorem findFirst_occursAt {pat text : List Char} {i : Nat}
    (h : findFirst pat text = some i) : occursAt pat text i = true :=
  List.find?_some h

theorem findFirst_le {pat text : List Char} {i : Nat}
    (h : findFirst pat text = some i) : i ≤ text.length := by
  have := List.mem_of_find?_eq_some h
  exact Nat.lt_succ_iff.mp (List.mem_range.mp this)

theorem splice_eq_of_decomp (pre mid post sm em body : List Char)
    (h1 : countOcc sm (pre ++ sm ++ mid ++ em ++ post) = 1)
    (h2 : countOcc em (mid ++ em ++ post) = 1) :
    splice (pre ++ sm ++ mid ++ em ++ post) sm em body =
      .ok (pre ++ sm ++ body ++ em ++ post) := by
  have hocc : occursAt sm (pre ++ sm ++ mid ++ em ++ post) pre.length = true := by
    have heq : pre ++ sm ++ mid ++ em ++ post = pre ++ (sm ++ (mid ++ em ++ post)) := by
      simp [List.append_assoc]
    rw [heq]
    exact occursAt_append pre (mid ++ em ++ post) sm
  have hf : findFirst sm (pre ++ sm ++ mid ++ em ++ post) = some pre.length :=
    findFirst_eq_of_unique h1 hocc (by simp [List.length_append])
  have hassoc : pre ++ sm ++ mid ++ em ++ post = (pre ++ sm) ++ (mid ++ em ++ post) := by
    simp [List.append_assoc]
  have hdrop : (pre ++ sm ++ mid ++ em ++ post).drop (pre.length + sm.length) =
      mid ++ em ++ post := by
    rw [hassoc]
    exact List.drop_left' (by simp)
  have hocc2 : occursAt em (mid ++ em ++ post) mid.length = true := by
    rw [List.append_assoc]
    exact occursAt_append mid post em
  have hg : findFirst em (mid ++ em ++ post) = some mid.length :=
    findFirst_eq_of_unique h2 hocc2 (by simp [List.length_append])
  have htake : (pre ++ sm ++ mid ++ em ++ post).take (pre.length + sm.length) =
      pre ++ sm := by
    rw [hassoc]
    exact List.take_left' (by simp)
  have hdrop2 : (mid ++ em ++ post).drop mid.length = em ++ post := by
    rw [List.append_assoc]
    exact List.drop_left mid (em ++ post)
  simp only [splice, hf]
  rw [if_pos h1]
  simp only [hdrop, hg]
  rw [if_pos h2, htake, hdrop2]
  simp [List.append_assoc]

theorem splice_ok_parts {c sm em body r : List Char}
    (h : splice c sm em body = .ok r) :
    ∃ i j, findFirst sm c = some i ∧ countOcc sm c = 1 ∧
      findFirst em (c.drop (i + sm.length)) = some j ∧
      countOcc em (c.drop (i + sm.length)) = 1 ∧
      r = c.take (i + sm.length) ++ body ++ (c.drop (i + sm.length)).drop j := by
  unfold splice at h
  cases hf : findFirst sm c with
  | none =>
    simp only [hf] at h
    exact Except.noConfusion h
  | some i =>
    simp only [hf] at h
    by_cases h1 : countOcc sm c = 1
    · rw [if_pos h1] at h
      cases hg : findFirst em (c.drop (i + sm.length)) with
      | none =>
        simp only [hg] at h
        exact Except.noConfusion h
      | some j =>
        simp only [hg] at h
        by_cases h2 : countOcc em (c.drop (i + sm.length)) = 1
        · rw [if_pos h2] at h
          injection h with h'
          exact ⟨i, j, rfl, h1, hg, h2, h'.symm⟩
        · rw [if_neg h2] at h
          exact Except.noConfusion h
    · rw [if_neg h1] at h
      exact Except.noConfusion h

theorem splice_ok_shape {c sm em body r : List Char}
    (h : splice c sm em body = .ok r) :
    ∃ pre mid post, c = pre ++ sm ++ mid ++ em ++ post ∧
      r = pre ++ sm ++ body ++ em ++ post ∧
      countOcc sm c = 1 ∧ countOcc em (mid ++ em ++ post) = 1 := by
  obtain ⟨i, j, hf, h1, hg, h2, hr⟩ := splice_ok_parts h
  have hilen : i ≤ c.length := findFirst_le hf
  have hjlen : j ≤ (c.drop (i + sm.length)).length := findFirst_le hg
  have hci : c = c.take i ++ sm ++ c.drop (i + sm.length) :=
    occursAt_decomp (findFirst_occursAt hf)
  have hrest : c.drop (i + sm.length) =
      (c.drop (i + sm.length)).take j ++ em ++
        (c.drop (i + sm.length)).drop (j + em.length) :=
    occursAt_decomp (findFirst_occursAt hg)
  have htake : c.take (i + sm.length) = c.take i ++ sm := by
    conv_lhs => rw [hci]
    exact List.take_left' (by simp [List.length_take, Nat.min_eq_left hilen])
  have hjlen' : j ≤ c.length - (i + sm.length) := by
    simpa [List.length_drop] using hjlen
  have hdropj : (c.drop (i + sm.length)).drop j =
      em ++ (c.drop (i + sm.length)).drop (j + em.length) := by
    conv_lhs => rw [hrest]
    rw [List.append_assoc]
    refine List.drop_left' ?_
    simp [List.length_take, List.length_drop]
    omega
  refine ⟨c.take i, (c.drop (i + sm.length)).take j,
    (c.drop (i + sm.length)).drop (j + em.length), ?_, ?_, h1, ?_⟩
  · calc c = c.take i ++ sm ++ c.drop (i + sm.length) := hci
      _ = c.take i ++ sm ++
          ((c.drop (i + sm.length)).take j ++ em ++
            (c.drop (i + sm.length)).drop (j + em.length)) := by rw [← hrest]
      _ = c.take i ++ sm ++ (c.drop (i + sm.length)).take j ++ em ++
          (c.drop (i + sm.length)).drop (j + em.length) := by
        simp [List.append_assoc]
  · rw [hr, htake, hdropj]
    simp [List.append_assoc]
  · rw [← hrest]
    exact h2

theorem splice_self {pre post sm em b r : List Char}
    (hc : splice (pre ++ sm ++ b ++ em ++ post) sm em b = .ok r) :
    r = pre ++ sm ++ b ++ em ++ post := by
  obtain ⟨i, j, hf, h1, hg, h2, _⟩ := splice_ok_parts hc
  have hocc : occursAt sm (pre ++ sm ++ b ++ em ++ post) pre.length = true := by
    have heq : pre ++ sm ++ b ++ em ++ post = pre ++ (sm ++ (b ++ em ++ post)) := by
      simp [List.append_assoc]
    rw [heq]
    exact occursAt_append pre (b ++ em ++ post) sm
  have hf' : findFirst sm (pre ++ sm ++ b ++ em ++ post) = some pre.length :=
    findFirst_eq_of_unique h1 hocc (by simp [List.length_append])
  have hi : i = pre.length := by
    rw [hf] at hf'
    exact Option.some.inj hf'
  subst hi
  have hdrop : (pre ++ sm ++ b ++ em ++ post).drop (pre.length + sm.length) =
      b ++ em ++ post := by
    have hassoc : pre ++ sm ++ b ++ em ++ post = (pre ++ sm) ++ (b ++ em ++ post) := by
      simp [List.append_assoc]
    rw [hassoc]
    exact List.drop_left' (by simp)
  rw [hdrop] at h2
  have heq := splice_eq_of_decomp pre b post sm em b h1 h2
  rw [heq] at hc
  injection hc with h'
  exact h'.symm

theorem splice_error_eq {c sm em body : List Char} {e : GenError}
    (h : splice c sm em body = .error e) : e = .markerMismatch := by
  unfold splice at h
  cases hf : findFirst sm c with
  | none =>
    simp only [hf] at h
    injection h with h'
    exact h'.symm
  | some i =>
    simp only [hf] at h
    by_cases h1 : countOcc sm c = 1
    · rw [if_pos h1] at h
      cases hg : findFirst em (c.drop (i + sm.length)) with
      | none =>
        simp only [hg] at h
        injection h with h'
        exact h'.symm
      | some j =>
        simp only [hg] at h
        by_cases h2 : countOcc em (c.drop (i + sm.length)) = 1
        · rw [if_pos h2] at h
          exact absurd h (by simp)
        · rw [if_neg h2] at h
          injection h with h'
          exact h'.symm
    · rw [if_neg h1] at h
      injection h with h'
      exact h'.symm

theorem splice_ok_wellFormed {c sm em body r : List Char}
    (h : splice c sm em body = .ok r) : wellFormedMarkers sm em c := by
  obtain ⟨pre, mid, post, hc, _, h1, h2⟩ := splice_ok_shape h
  exact ⟨pre, mid, post, hc, h1, h2⟩

theorem splice_not_wellFormed {c sm em body : List Char}
    (hn : ¬ wellFormedMarkers sm em c) :
    splice c sm em body = .error .markerMismatch := by
  cases h : splice c sm em body with
  | ok r => exact absurd (splice_ok_wellFormed h) hn
  | error e => rw [splice_error_eq h]

/-! ## LanguageProfile (spec section 4.1; the language table of the generator
is not in the audited tree) -/

/-- The known language tags of the generator (the match arms of
models.rs lines 137-144 and the language list of the embedded skill text). -/
inductive Lang where
  | rust
  | go
  | python
  | javascript
  | typescript
  | markdown
deriving DecidableEq, Repr

/-- Modelled from the spec: lookup of a language tag, `none` for an unknown
tag (spec section 4.1, validator.rs is not in the audited tree). -/
def languageProfile (tag : List Char) : Option Lang :=
  if tag = "rust".toList then some .rust
  else if tag = "go".toList then some .go
  else if tag = "python".toList then some .python
  else if tag = "javascript".toList then some .javascript
  else if tag = "typescript".toList then some .typescript
  else if tag = "markdown".toList then some .markdown
  else none

/-- Modelled from the spec: the conventional aggregator (barrel) filename per
language (spec section 4.1; the rust/python/js/ts names are listed in the
skill text of up.rs). -/
def aggregatorFilename : Lang → List Char
  | .rust => "mod.rs".toList
  | .go => "doc.go".toList
  | .python => "__init__.py".toList
  | .javascript => "index.js".toList
  | .typescript => "index.ts".toList
  | .markdown => "index.md".toList

/-- Modelled from the spec: the conventional project manifest filename per
language (spec section 4.1; Cargo.toml, package.json, go.mod are listed in
up.rs). -/
def manifestFilename : Lang → List Char
  | .rust => "Cargo.toml".toList
  | .go => "go.mod".toList
  | .python => "pyproject.toml".toList
  | .javascript => "package.json".toList
  | .typescript => "package.json".toList
  | .markdown => "README.md".toList

/-- Modelled from the spec: start marker line of a managed region (the rust
form appears verbatim in the repository's own mod.rs files). -/
def startMarker : Lang → List Char
  | .python => "# start auto exported by moli.\n".toList
  | .markdown => "<!-- start auto exported by moli. -->\n".toList
  | _ => "// start auto exported by moli.\n".toList

/-- Modelled from the spec: end marker line of a managed region. -/
def endMarker : Lang → List Char
  | .python => "# end auto exported by moli.\n".toList
  | .markdown => "<!-- end auto exported by moli. -->\n".toList
  | _ => "// end auto exported by moli.\n".toList

/-- Modelled from the spec: language-appropriate header of a freshly
synthesized managed file (empty: the repository's own mod.rs files begin
directly with the start marker). -/
def headerFor (_lg : Lang) : List Char := []

/-- One entry of a ChildExportList: child name, whether it is a
sub-directory, and its visibility hint (spec section 3). -/
structure ExportItem where
  name : List Char
  isDir : Bool
  vis : Option (List Char)
deriving DecidableEq, Repr

/-- Modelled from the spec: render one export/declare line for a child
(spec section 4.1 (d); the rust form appears verbatim in the repository's
own mod.rs files). -/
def renderExport : Lang → ExportItem → List Char
  | .rust, it => "pub mod ".toList ++ it.name ++ ";\n".toList
  | .go, it => "// child ".toList ++ it.name ++ "\n".toList
  | .python, it => "from . import ".toList ++ it.name ++ "\n".toList
  | .javascript, it => "export * from ./".toList ++ it.name ++ "\n".toList
  | .typescript, it => "export * from ./".toList ++ it.name ++ "\n".toList
  | .markdown, it => "- ".toList ++ it.name ++ "\n".toList

/-- One export line per child, in declaration order (spec section 4.3,
ManagedAggregator tier). -/
def renderExports (lg : Lang) (items : List ExportItem) : List Char :=
  (items.map (renderExport lg)).flatten

/-- Modelled from the spec: minimal language-appropriate manifest body
identifying the project name (spec section 6). -/
def manifestBodyFor (lg : Lang) (projectName : List Char) : List Char :=
  match lg with
  | .rust => "[package]\nname = \"".toList ++ projectName ++ "\"\n".toList
  | _ => "# manifest for ".toList ++ projectName ++ "\n".toList

/-- Modelled from the spec: whether the language's tooling supports
multi-project workspaces (spec section 4.5; up.rs names rust workspaces). -/
def workspaceCapable : Lang → Bool
  | .rust => true
  | _ => false

/-! ## Filesystem model and FileMaterializer (spec section 4.3;
file_builder.rs and directory_builder.rs are not in the audited tree) -/

/-- The filesystem: an association list from paths to file contents, newest
entry first.  Directories carry no content and are not tracked. -/
abbrev FS : Type := List (List Char × List Char)

def lookupFS : FS → List Char → Option (List Char)
  | [], _ => none
  | (q, c) :: r, p => if q = p then some c else lookupFS r p

def insertFS (p c : List Char) (fs : FS) : FS := (p, c) :: fs

/-- The body passed to one materializer call: an opaque file body, or the
ChildExportList of an aggregator refresh. -/
inductive Payload where
  | body (b : List Char)
  | exports (items : List ExportItem)
deriving DecidableEq, Repr

/-- One pending materializer call: target path, body, owning project's
language. -/
structure Op where
  path : List Char
  payload : Payload
  lang : Lang
deriving DecidableEq, Repr

/-- The three protection tiers (spec section 4.3). -/
inductive Tier where
  | protectedTier
  | managedAggregator
  | configOnce
deriving DecidableEq, Repr

/-- Base name of a path: the segment after the last slash. -/
def basename (p : List Char) : List Char :=
  (p.reverse.takeWhile (fun c => c ≠ '/')).reverse

/-- Modelled from the spec: the classification rule of section 4.3, applied
in order: aggregator filename, then manifest filename, else Protected. -/
def classify (lg : Lang) (p : List Char) : Tier :=
  if basename p = aggregatorFilename lg then .managedAggregator
  else if basename p = manifestFilename lg then .configOnce
  else .protectedTier

def payloadContent (lg : Lang) : Payload → List Char
  | .body b => b
  | .exports items => renderExports lg items

/-- Modelled from the spec: one FileMaterializer call (spec section 4.3
write policy per tier, and section 4.2 for the fresh-file synthesis of the
managed tier). -/
def materializeOp (fs : FS) (op : Op) : FS × Option GenError :=
  match classify op.lang op.path with
  | .protectedTier =>
    match lookupFS fs op.path with
    | some _ => (fs, none)
    | none => (insertFS op.path (payloadContent op.lang op.payload) fs, none)
  | .configOnce =>
    match lookupFS fs op.path with
    | some _ => (fs, none)
    | none => (insertFS op.path (payloadContent op.lang op.payload) fs, none)
  | .managedAggregator =>
    match lookupFS fs op.path with
    | none =>
      (insertFS op.path
        (headerFor op.lang ++ startMarker op.lang ++
          payloadContent op.lang op.payload ++ endMarker op.lang) fs, none)
    | some c =>
      match splice c (startMarker op.lang) (endMarker op.lang)
          (payloadContent op.lang op.payload) with
      | .ok r => (insertFS op.path r fs, none)
      | .error e => (fs, some e)

/-- Run the pending materializer calls left to right, stopping at the first
failure (spec section 7: a failure aborts the remaining traversal but does
not roll back files already written). -/
def exec (fs : FS) : List Op → FS × Option GenError
  | [] => (fs, none)
  | op :: ops =>
    match materializeOp fs op with
    | (fs1, none) => exec fs1 ops
    | (fs1, some e) => (fs1, some e)

/-! ## ModuleTreeWalker (spec section 4.4; generator.rs is not in the
audited tree) -/

def slash : List Char := ['/']

def dotPath : List Char := ['.']

/-- The export items of a module list, one per child module, in declaration
order. -/
def moduleItems : ModuleList → List ExportItem
  | .nil => []
  | .cons m ms => ⟨m.name, true, m.pubSetting⟩ :: moduleItems ms

/-- The combined, declaration-ordered ChildExportList of a directory: child
module names then child file names, each tagged with its kind (spec
section 4.4). -/
def childItems (tree : ModuleList) (files : List CodeFile) : List ExportItem :=
  moduleItems tree ++ files.map (fun f => ⟨f.name, false, f.pubSetting⟩)

/-- Modelled from the spec: the recursive walk of section 4.4.  For each
module: walk the child modules first, then one Protected call per declared
file (filename resolved via CodeFile::filename_with_extension), then one
ManagedAggregator call for the directory's aggregator file with the combined
child list. -/
def walkModules (lg : Lang) (langTag base : List Char) : ModuleList → List Op
  | .nil => []
  | .cons (.mk n _ t f) ms =>
    walkModules lg langTag (base ++ slash ++ n) t
    ++ f.map (fun cf =>
        ⟨base ++ slash ++ n ++ slash ++ cf.filename_with_extension langTag,
          .body [], lg⟩)
    ++ [⟨base ++ slash ++ n ++ slash ++ aggregatorFilename lg,
          .exports (childItems t f), lg⟩]
    ++ walkModules lg langTag base ms

/-- Modelled from the spec: the per-project plan.  Root projects render
relative to the invocation directory, non-root projects under a directory
named after the project (spec section 3); top-level files are handled like
module files and the project manifest via ConfigOnce (spec section 4.4). -/
def planProject (pp : Project × Lang) : List Op :=
  let base := if pp.1.root then dotPath else dotPath ++ slash ++ pp.1.name
  walkModules pp.2 pp.1.lang base pp.1.spec
  ++ pp.1.file.map (fun cf =>
      ⟨base ++ slash ++ cf.filename_with_extension pp.1.lang, .body [], pp.2⟩)
  ++ [⟨base ++ slash ++ manifestFilename pp.2,
        .body (manifestBodyFor pp.2 pp.1.name), pp.2⟩]

/-- Modelled from the spec: resolve every project's language tag up front,
failing on the first unknown tag (spec sections 4.1 and 7: checked before
any filesystem mutation). -/
def profilesOf : List Project → Option (List (Project × Lang))
  | [] => some []
  | p :: ps =>
    match languageProfile p.lang with
    | none => none
    | some lg =>
      match profilesOf ps with
      | none => none
      | some r => some ((p, lg) :: r)

/-- Modelled from the spec: body of the root workspace manifest listing the
member projects (spec section 4.5). -/
def workspaceManifest (members : List (List Char)) : List Char :=
  "[workspace]\nmembers = [\n".toList ++
    (members.map (fun n => "  ".toList ++ n ++ ",\n".toList)).flatten ++
    "]\n".toList

/-- Modelled from the spec: WorkspaceSynthesizer (spec section 4.5) — when at
least two projects share a workspace-capable language, one ConfigOnce call
for the root workspace manifest, after all projects. -/
def workspaceOps (pps : List (Project × Lang)) : List Op :=
  let ws := pps.filter (fun pp => workspaceCapable pp.2)
  if 2 ≤ ws.length then
    [⟨dotPath ++ slash ++ "Cargo.toml".toList,
      .body (workspaceManifest (ws.map (fun pp => pp.1.name))), .rust⟩]
  else []

/-- The full, configuration-determined sequence of materializer calls of one
run: every project in declaration order, then the workspace pass. -/
def planConfig (pps : List (Project × Lang)) : List Op :=
  (pps.map planProject).flatten ++ workspaceOps pps

def isAggOp (op : Op) : Bool :=
  classify op.lang op.path == Tier.managedAggregator

/-- The target paths of the plan's ManagedAggregator calls. -/
def aggPaths (ops : List Op) : List (List Char) :=
  (ops.filter isAggOp).map Op.path

/-- Modelled from the spec: one generation run — resolve all language tags
up front (section 4.1), run the uniqueness pass prior to traversal (section
4.4: `NameCollision` is detected before any write; here: no two aggregator
calls may target one path), then execute the plan. -/
def generate (cfg : MoliConfig) (fs : FS) : FS × Option GenError :=
  match profilesOf cfg.projects with
  | none => (fs, some .unsupportedLanguage)
  | some pps =>
    if (aggPaths (planConfig pps)).Nodup then exec fs (planConfig pps)
    else (fs, some .nameCollision)

/-! ## Lemmas about the materializer and the executed plan -/

theorem lookupFS_insert (p c : List Char) (fs : FS) (q : List Char) :
    lookupFS (insertFS p c fs) q = if p = q then some c else lookupFS fs q := rfl

theorem isAggOp_iff {op : Op} :
    isAggOp op = true ↔ classify op.lang op.path = .managedAggregator := by
  simp [isAggOp]

theorem aggPaths_cons (op : Op) (ops : List Op) :
    aggPaths (op :: ops) =
      if isAggOp op then op.path :: aggPaths ops else aggPaths ops := by
  simp only [aggPaths, List.filter_cons]
  split <;> simp

theorem not_mem_aggPaths {p : List Char} {ops : List Op} :
    p ∉ aggPaths ops ↔ ∀ op' ∈ ops, isAggOp op' = true → op'.path ≠ p := by
  simp only [aggPaths, List.mem_map, List.mem_filter]
  constructor
  · intro h op' hmem hagg hpath
    exact h ⟨op', ⟨hmem, hagg⟩, hpath⟩
  · rintro h ⟨op', ⟨hmem, hagg⟩, hpath⟩
    exact h op' hmem hagg hpath

theorem materializeOp_other {fs : FS} {op : Op} {p : List Char}
    (hne : op.path ≠ p) :
    lookupFS (materializeOp fs op).1 p = lookupFS fs p := by
  unfold materializeOp
  cases classify op.lang op.path with
  | protectedTier =>
    cases lookupFS fs op.path with
    | some c => rfl
    | none => simp [lookupFS_insert, hne]
  | configOnce =>
    cases lookupFS fs op.path with
    | some c => rfl
    | none => simp [lookupFS_insert, hne]
  | managedAggregator =>
    cases lookupFS fs op.path with
    | none => simp [lookupFS_insert, hne]
    | some c =>
      cases hs : splice c (startMarker op.lang) (endMarker op.lang)
          (payloadContent op.lang op.payload) with
      | ok r => simp [lookupFS_insert, hne, hs]
      | error e => simp [hs]

theorem materializeOp_mono {fs : FS} {op : Op} {p : List Char}
    (h : (lookupFS fs p).isSome = true) :
    (lookupFS (materializeOp fs op).1 p).isSome = true := by
  by_cases hne : op.path = p
  · subst hne
    unfold materializeOp
    cases classify op.lang op.path with
    | protectedTier =>
      cases hl : lookupFS fs op.path with
      | none => rw [hl] at h; simp at h
      | some c => exact h
    | configOnce =>
      cases hl : lookupFS fs op.path with
      | none => rw [hl] at h; simp at h
      | some c => exact h
    | managedAggregator =>
      cases hl : lookupFS fs op.path with
      | none => simp [lookupFS_insert]
      | some c =>
        cases hs : splice c (startMarker op.lang) (endMarker op.lang)
            (payloadContent op.lang op.payload) with
        | ok r => simp [lookupFS_insert, hs]
        | error e =>
          simp only [hs]
          exact h
  · rw [materializeOp_other hne]
    exact h

theorem exec_mono {ops : List Op} {fs : FS} {p : List Char}
    (h : (lookupFS fs p).isSome = true) :
    (lookupFS (exec fs ops).1 p).isSome = true := by
  induction ops generalizing fs with
  | nil => exact h
  | cons op ops ih =>
    simp only [exec]
    cases hm : materializeOp fs op with
    | mk fs1 e =>
      have hmono := @materializeOp_mono fs op p h
      rw [hm] at hmono
      cases e with
      | none => exact ih hmono
      | some e' => exact hmono

theorem exec_preserve {ops : List Op} {fs : FS} {p c : List Char}
    (hc : lookupFS fs p = some c)
    (hnoagg : ∀ op ∈ ops, op.path = p →
      classify op.lang op.path ≠ .managedAggregator) :
    lookupFS (exec fs ops).1 p = some c := by
  induction ops generalizing fs with
  | nil => exact hc
  | cons op ops ih =>
    simp only [exec]
    by_cases hne : op.path = p
    · have hcl := hnoagg op (List.mem_cons_self op ops) hne
      have hm : materializeOp fs op = (fs, none) := by
        unfold materializeOp
        cases hclv : classify op.lang op.path with
        | protectedTier => simp [hne, hc]
        | configOnce => simp [hne, hc]
        | managedAggregator => exact absurd hclv hcl
      rw [hm]
      exact ih hc (fun op' h' hp => hnoagg op' (List.mem_cons_of_mem _ h') hp)
    · cases hm : materializeOp fs op with
      | mk fs1 e =>
        have hother := @materializeOp_other fs op p hne
        rw [hm] at hother
        have hc1 : lookupFS fs1 p = some c := by rw [hother]; exact hc
        cases e with
        | none => exact ih hc1 (fun op' h' hp => hnoagg op' (List.mem_cons_of_mem _ h') hp)
        | some e' => exact hc1

/-- The state the materializer guarantees at an operation's target path after
a successful run: an existing file for the Protected and ConfigOnce tiers,
and marker-shaped content enclosing exactly the operation's body for the
ManagedAggregator tier. -/
def opPost (op : Op) (fs : FS) : Prop :=
  match classify op.lang op.path with
  | .managedAggregator =>
    ∃ pre post, lookupFS fs op.path =
      some (pre ++ startMarker op.lang ++ payloadContent op.lang op.payload ++
        endMarker op.lang ++ post)
  | _ => (lookupFS fs op.path).isSome = true

theorem materializeOp_post {fs fs1 : FS} {op : Op}
    (h : materializeOp fs op = (fs1, none)) : opPost op fs1 := by
  unfold materializeOp at h
  unfold opPost
  cases hcl : classify op.lang op.path with
  | protectedTier =>
    simp only [hcl] at h
    cases hl : lookupFS fs op.path with
    | some c =>
      simp only [hl] at h
      injection h with h1 _
      rw [← h1, hl]
      rfl
    | none =>
      simp only [hl] at h
      injection h with h1 _
      rw [← h1]
      simp [lookupFS_insert]
  | configOnce =>
    simp only [hcl] at h
    cases hl : lookupFS fs op.path with
    | some c =>
      simp only [hl] at h
      injection h with h1 _
      rw [← h1, hl]
      rfl
    | none =>
      simp only [hl] at h
      injection h with h1 _
      rw [← h1]
      simp [lookupFS_insert]
  | managedAggregator =>
    simp only [hcl] at h
    cases hl : lookupFS fs op.path with
    | none =>
      simp only [hl] at h
      injection h with h1 _
      refine ⟨headerFor op.lang, [], ?_⟩
      rw [← h1]
      simp [lookupFS_insert, List.append_assoc]
    | some c =>
      simp only [hl] at h
      cases hs : splice c (startMarker op.lang) (endMarker op.lang)
          (payloadContent op.lang op.payload) with
      | ok r =>
        simp only [hs] at h
        injection h with h1 _
        obtain ⟨pre, mid, post, _, hr, _, _⟩ := splice_ok_shape hs
        refine ⟨pre, post, ?_⟩
        rw [← h1]
        simp [lookupFS_insert, hr]
      | error e =>
        simp only [hs] at h
        injection h with _ h2
        exact absurd h2 (by simp)

theorem opPost_preserved {op : Op} {ops : List Op} {fs : FS}
    (hpost : opPost op fs)
    (hnoagg : classify op.lang op.path = .managedAggregator →
      ∀ op' ∈ ops, op'.path = op.path →
        classify op'.lang op'.path ≠ .managedAggregator) :
    opPost op (exec fs ops).1 := by
  unfold opPost at hpost ⊢
  cases hcl : classify op.lang op.path with
  | protectedTier =>
    rw [hcl] at hpost
    exact exec_mono hpost
  | configOnce =>
    rw [hcl] at hpost
    exact exec_mono hpost
  | managedAggregator =>
    rw [hcl] at hpost
    obtain ⟨pre, post, hc⟩ := hpost
    exact ⟨pre, post, exec_preserve hc (hnoagg hcl)⟩

theorem exec_post {ops : List Op} {fs fs1 : FS}
    (hnd : (aggPaths ops).Nodup)
    (h : exec fs ops = (fs1, none)) :
    ∀ op ∈ ops, opPost op fs1 := by
  induction ops generalizing fs with
  | nil =>
    intro op hop
    cases hop
  | cons op0 ops ih =>
    simp only [exec] at h
    cases hm : materializeOp fs op0 with
    | mk g e =>
      rw [hm] at h
      cases e with
      | some e' => simp at h
      | none =>
        have h' : exec g ops = (fs1, none) := h
        have hnd' : (aggPaths ops).Nodup := by
          rw [aggPaths_cons] at hnd
          by_cases ha : isAggOp op0 = true
          · rw [if_pos ha] at hnd
            exact (List.nodup_cons.mp hnd).2
          · rwa [if_neg ha] at hnd
        intro op hop
        rcases List.mem_cons.mp hop with rfl | hmem
        · have hp := materializeOp_post hm
          have hpres : opPost op (exec g ops).1 := by
            refine opPost_preserved hp ?_
            intro hcl op' hop' hpath hcl'
            have hnotin : op.path ∉ aggPaths ops := by
              rw [aggPaths_cons] at hnd
              rw [if_pos (isAggOp_iff.mpr hcl)] at hnd
              exact (List.nodup_cons.mp hnd).1
            exact (not_mem_aggPaths.mp hnotin op' hop' (isAggOp_iff.mpr hcl')) hpath
          rw [h'] at hpres
          exact hpres
        · exact ih hnd' h' op hmem

theorem exec_twice {ops : List Op} {fs1 h0 fs2 : FS}
    (hpost : ∀ op ∈ ops, opPost op fs1)
    (hext : ∀ q, lookupFS h0 q = lookupFS fs1 q)
    (hrun : exec h0 ops = (fs2, none)) :
    ∀ q, lookupFS fs2 q = lookupFS fs1 q := by
  induction ops generalizing h0 with
  | nil =>
    simp only [exec] at hrun
    injection hrun with h1 _
    intro q
    rw [← h1]
    exact hext q
  | cons op ops ih =>
    simp only [exec] at hrun
    cases hm : materializeOp h0 op with
    | mk g e =>
      rw [hm] at hrun
      cases e with
      | some e' => simp at hrun
      | none =>
        have hpost0 := hpost op (List.mem_cons_self op ops)
        unfold opPost at hpost0
        have hgext : ∀ q, lookupFS g q = lookupFS fs1 q := by
          cases hcl : classify op.lang op.path with
          | protectedTier =>
            rw [hcl] at hpost0
            obtain ⟨c, hc⟩ := Option.isSome_iff_exists.mp hpost0
            have hm' : materializeOp h0 op = (h0, none) := by
              unfold materializeOp
              simp only [hcl, hext op.path, hc]
            rw [hm'] at hm
            injection hm with hg _
            intro q
            rw [← hg]
            exact hext q
          | configOnce =>
            rw [hcl] at hpost0
            obtain ⟨c, hc⟩ := Option.isSome_iff_exists.mp hpost0
            have hm' : materializeOp h0 op = (h0, none) := by
              unfold materializeOp
              simp only [hcl, hext op.path, hc]
            rw [hm'] at hm
            injection hm with hg _
            intro q
            rw [← hg]
            exact hext q
          | managedAggregator =>
            rw [hcl] at hpost0
            obtain ⟨pre, post, hc1⟩ := hpost0
            have hlook : lookupFS h0 op.path =
                some (pre ++ startMarker op.lang ++
                  payloadContent op.lang op.payload ++ endMarker op.lang ++ post) := by
              rw [hext op.path, hc1]
            have hm' := hm
            unfold materializeOp at hm'
            simp only [hcl, hlook] at hm'
            cases hs : splice
                (pre ++ startMarker op.lang ++ payloadContent op.lang op.payload ++
                  endMarker op.lang ++ post)
                (startMarker op.lang) (endMarker op.lang)
                (payloadContent op.lang op.payload) with
            | error e => rw [hs] at hm'; simp at hm'
            | ok r =>
              rw [hs] at hm'
              have hr := splice_self hs
              injection hm' with hg _
              intro q
              rw [← hg, lookupFS_insert]
              by_cases hq : op.path = q
              · subst hq
                rw [if_pos rfl, hr, hc1]
              · rw [if_neg hq]
                exact hext q
        exact ih (fun op' hmem => hpost op' (List.mem_cons_of_mem _ hmem)) hgext hrun

theorem profilesOf_none {ps : List Project} {p : Project}
    (hmem : p ∈ ps) (hunk : languageProfile p.lang = none) :
    profilesOf ps = none := by
  induction ps with
  | nil => cases hmem
  | cons q ps ih =>
    rcases List.mem_cons.mp hmem with rfl | hmem'
    · unfold profilesOf
      rw [hunk]
    · unfold profilesOf
      cases languageProfile q.lang with
      | none => rfl
      | some lg => rw [ih hmem']

/-! ## moli new helpers (src/cli/command/new.rs) -/

/-- Rust str::lines, step 1: split on newline characters, keeping a final
empty segment. -/
def splitNl : List Char → List (List Char)
  | [] => [[]]
  | c :: r =>
    let res := splitNl r
    if c = '\n' then [] :: res
    else
      match res with
      | [] => [[c]]
      | h :: t => (c :: h) :: t

/-- Rust str::lines, step 2: strip one trailing carriage return of a
newline-terminated line (the carriage return of a `\r\n` line ending). -/
def stripCr (l : List Char) : List Char :=
  if l.getLast? = some '\r' then l.dropLast else l

/-- Rust str::lines: split at `\n`, the final line ending optional.  A
carriage return is removed only as part of a `\r\n` line ending, so it is
stripped from every newline-terminated segment but kept on a final segment
not terminated by a newline (std's `"foo\r\nbar\n\nbaz\r"` example keeps
`baz\r`). -/
def rustLines (s : List Char) : List (List Char) :=
  if s = [] then []
  else
    let parts := splitNl s
    if parts.getLast? = some [] then parts.dropLast.map stripCr
    else parts.dropLast.map stripCr ++ [parts.getLast?.getD []]

/-- Rust `str::parse::<i32>`, step 1: split an optional leading sign off. -/
def signSplit : List Char → Int × List Char
  | '+' :: r => (1, r)
  | '-' :: r => (-1, r)
  | r => (1, r)

/-- Rust `str::parse::<i32>`, step 2: the signed decimal value of the digit
part. -/
def parsedVal (s : List Char) : Int :=
  (signSplit s).1 *
    ((signSplit s).2.foldl (fun a c => 10 * a + ((c.toNat - '0'.toNat : Nat) : Int)) 0)

/-- Rust `str::parse::<i32>`: optional sign, at least one digit, nothing
else, value within the i32 range. -/
def parseI32 (s : List Char) : Option Int :=
  if (signSplit s).2 = [] then none
  else if (signSplit s).2.all (fun c => c.isDigit) then
    if -2147483648 ≤ parsedVal s ∧ parsedVal s ≤ 2147483647 then some (parsedVal s)
    else none
  else none

/-- Two's-complement wrap-around to the i32 range, the release-profile
semantics of an overflowing Rust i32 addition (debug builds panic instead,
and in neither case is the mathematical sum produced). -/
def wrapI32 (x : Int) : Int :=
  (x + 2147483648) % 4294967296 - 2147483648

/-- The numbers of the `- name: app_<k>` lines of the content, in line
order (the loop body of new.rs lines 259-267). -/
def appNums (content : List Char) : List Int :=
  (rustLines content).filterMap (fun l =>
    if l.take 12 = "- name: app_".toList then parseI32 (l.drop 12) else none)

/-- The i32 counter loop of new.rs lines 259-267: starting from 1, each
parsed number at least the current counter bumps the counter to one past it,
with `num + 1` performed in i32 (wrapping two's-complement, the release
profile's overflow behavior). -/
def seqFold : List Int → Int → Int
  | [], c => c
  | n :: ns, c => seqFold ns (if c ≤ n then wrapI32 (n + 1) else c)

/-- Decimal rendering of an integer. -/
def intChars (n : Int) : List Char :=
  if n < 0 then '-' :: Nat.toDigits 10 n.natAbs else Nat.toDigits 10 n.natAbs

/-- generate_sequential_project_name (new.rs lines 250-271), over the
optional content of moli.yml (`none` when the file does not exist).  The
counter is an i32. -/
def generate_sequential_project_name (content : Option (List Char)) : List Char :=
  let counter : Int :=
    match content with
    | none => 1
    | some s => seqFold (appNums s) 1
  "app_".toList ++ intChars counter

/-- Largest element of an integer list, 0 for the empty list. -/
def maxOf : List Int → Int
  | [] => 0
  | n :: ns => max n (maxOf ns)

/-- The claim's reading of sequential naming (the specification side of the
refinement): one more than the largest k of a line beginning
`- name: app_k` with k parsing as an integer at least 1; 1 when the file is
missing or no such line exists. -/
def claimedCounter (content : Option (List Char)) : Int :=
  match content with
  | none => 1
  | some s =>
    let ks := (appNums s).filter (fun k => 1 ≤ k)
    if ks = [] then 1 else 1 + maxOf ks

/-- Closed form of the counter loop: substituting each eligible number by one
past it and folding with max from 1. -/
def maxFold : List Int → Int
  | [] => 1
  | n :: ns => if 1 ≤ n then max (n + 1) (maxFold ns) else maxFold ns

theorem one_le_maxFold (ns : List Int) : 1 ≤ maxFold ns := by
  induction ns with
  | nil => exact le_refl 1
  | cons n ns ih =>
    simp only [maxFold]
    by_cases h : 1 ≤ n
    · rw [if_pos h]
      exact le_trans ih (le_max_right _ _)
    · rwa [if_neg h]

theorem wrapI32_eq_self {x : Int} (h1 : -2147483648 ≤ x) (h2 : x < 2147483648) :
    wrapI32 x = x := by
  unfold wrapI32
  rw [Int.emod_eq_of_lt (by omega) (by omega)]
  omega

theorem parseI32_bounds {s : List Char} {v : Int} (h : parseI32 s = some v) :
    -2147483648 ≤ v ∧ v ≤ 2147483647 := by
  unfold parseI32 at h
  by_cases h0 : (signSplit s).2 = []
  · rw [if_pos h0] at h
    exact Option.noConfusion h
  · rw [if_neg h0] at h
    by_cases h1 : (signSplit s).2.all (fun c => c.isDigit) = true
    · rw [if_pos h1] at h
      by_cases h2 : -2147483648 ≤ parsedVal s ∧ parsedVal s ≤ 2147483647
      · rw [if_pos h2] at h
        injection h with h'
        rw [← h']
        exact h2
      · rw [if_neg h2] at h
        exact Option.noConfusion h
    · rw [if_neg h1] at h
      exact Option.noConfusion h

theorem appNums_bounds {s : List Char} {k : Int} (hk : k ∈ appNums s) :
    -2147483648 ≤ k ∧ k ≤ 2147483647 := by
  unfold appNums at hk
  obtain ⟨l, _, hl⟩ := List.mem_filterMap.mp hk
  by_cases hp : l.take 12 = "- name: app_".toList
  · rw [if_pos hp] at hl
    exact parseI32_bounds hl
  · rw [if_neg hp] at hl
    exact Option.noConfusion hl

theorem seqFold_eq_max (ns : List Int)
    (hb : ∀ n ∈ ns, -2147483648 ≤ n ∧ n < 2147483647) : ∀ c : Int, 1 ≤ c →
    seqFold ns c = max c (maxFold ns) := by
  induction ns with
  | nil =>
    intro c hc
    simp only [seqFold, maxFold]
    exact (max_eq_left hc).symm
  | cons n ns ih =>
    intro c hc
    have hbn := hb n (List.mem_cons_self n ns)
    have hbtail : ∀ n' ∈ ns, -2147483648 ≤ n' ∧ n' < 2147483647 :=
      fun n' hn' => hb n' (List.mem_cons_of_mem _ hn')
    simp only [seqFold, maxFold]
    by_cases hn : c ≤ n
    · rw [if_pos hn, if_pos (le_trans hc hn)]
      rw [wrapI32_eq_self (by omega) (by omega)]
      rw [ih hbtail (n + 1) (by omega)]
      have hle : c ≤ max (n + 1) (maxFold ns) :=
        le_trans (by omega) (le_max_left _ _)
      exact (max_eq_right hle).symm
    · rw [if_neg hn, ih hbtail c hc]
      by_cases h1n : 1 ≤ n
      · rw [if_pos h1n]
        have hle : n + 1 ≤ c := by omega
        rw [← max_assoc, max_eq_left hle]
      · rw [if_neg h1n]

theorem maxFold_eq_claimed (ns : List Int) :
    maxFold ns =
      if ns.filter (fun k => 1 ≤ k) = [] then 1
      else 1 + maxOf (ns.filter (fun k => 1 ≤ k)) := by
  induction ns with
  | nil => simp [maxFold]
  | cons n ns ih =>
    simp only [maxFold, List.filter_cons]
    by_cases h1n : 1 ≤ n
    · have hd : decide (1 ≤ n) = true := by simpa using h1n
      rw [if_pos h1n, hd]
      rw [if_pos rfl]
      rw [if_neg (by simp)]
      simp only [maxOf]
      rw [ih]
      by_cases hks : ns.filter (fun k => 1 ≤ k) = []
      · rw [if_pos hks, hks]
        simp only [maxOf]
        rw [max_eq_left (by omega : (1 : Int) ≤ n + 1),
          max_eq_left (by omega : (0 : Int) ≤ n)]
        omega
      · rw [if_neg hks]
        rw [add_comm 1 (maxOf _), add_comm 1 (max n _)]
        exact max_add_add_right n _ 1
    · have hd : decide (1 ≤ n) = false := by simpa using h1n
      rw [if_neg h1n, hd]
      simp only [Bool.false_eq_true, if_false]
      exact ih

/-! ## Regex-based first-root-block replacement (new.rs) -/

/-- The rest of the candidate name line after the `- name: ` prefix at
index i: everything up to the next newline (regex `[^\n]+` with the
following literal newline). -/
def nameRestAt (content : List Char) (i : Nat) : List Char :=
  (content.drop (i + 8)).takeWhile (fun c => c ≠ '\n')

/-- Whether index i is a line start (multi-line `^`): the start of the text
or just after a newline. -/
def lineStartAt (content : List Char) (i : Nat) : Bool :=
  i == 0 || content[i - 1]? == some '\n'

/-- Whether the regex `(?m)^- name: ([^\n]+)\n  root: true\n` of new.rs line
280 matches at index i. -/
def blockAt (content : List Char) (i : Nat) : Bool :=
  lineStartAt content i &&
  (content.drop i).take 8 == "- name: ".toList &&
  !(nameRestAt content i).isEmpty &&
  (content.drop (i + 8 + (nameRestAt content i).length)).take 14 ==
    "\n  root: true\n".toList

/-- Leftmost match position of the first-root-block regex. -/
def findBlock (content : List Char) : Option Nat :=
  (List.range (content.length + 1)).find? (blockAt content)

/-- replace_first_project_name_with_current_dir (new.rs lines 273-288): the
first match of `(?m)^- name: ([^\n]+)\n  root: true\n` is replaced by
`- name: .\n`; without a match the content is returned unchanged. -/
def replace_first_project_name_with_current_dir (content : List Char) : List Char :=
  match findBlock content with
  | none => content
  | some i =>
    content.take i ++ "- name: .\n".toList ++
      content.drop (i + 8 + (nameRestAt content i).length + 14)

/-- get_main_file_name (new.rs lines 290-300). -/
def get_main_file_name (language : List Char) (isRoot : Bool) : List Char :=
  if language = "rust".toList then
    (if isRoot then "main".toList else "lib".toList)
  else if language = "go".toList then "main".toList
  else if language = "python".toList then "main".toList
  else if language = "typescript".toList then "index".toList
  else if language = "javascript".toList then "index".toList
  else if language = "any".toList then "README.md".toList
  else "main".toList

/-- The new project's YAML block of append_to_existing_moli_yml (new.rs lines
168-240): a `tree:`-shaped block for rust / python / typescript / javascript
and unknown languages, a root-level `file:` block for go and `any`. -/
def newProjectYaml (projectName language : List Char) : List Char :=
  let mainFile := get_main_file_name language false
  let treeForm := "\n\n- name: ".toList ++ projectName ++ "\n  lang: ".toList ++
    language ++ "\n  tree:\n    - name: src\n      file:\n        - name: ".toList ++
    mainFile ++ "\n".toList
  let fileForm := "\n\n- name: ".toList ++ projectName ++ "\n  lang: ".toList ++
    language ++ "\n  file:\n    - name: ".toList ++ mainFile ++ "\n".toList
  if language = "rust".toList then treeForm
  else if language = "go".toList then fileForm
  else if language = "python".toList ∨ language = "typescript".toList ∨
      language = "javascript".toList then treeForm
  else if language = "any".toList then fileForm
  else treeForm

/-- append_to_existing_moli_yml (new.rs lines 158-248) on explicit content:
rewrite the first root block, then append the new project's YAML. -/
def append_to_existing_moli_yml (projectName language content : List Char) :
    List Char :=
  replace_first_project_name_with_current_dir content ++
    newProjectYaml projectName language

theorem takeWhile_append_stop {p : Char → Bool} (nm : List Char) (x : Char)
    (r : List Char) (hall : ∀ c ∈ nm, p c = true) (hx : p x = false) :
    (nm ++ x :: r).takeWhile p = nm := by
  induction nm with
  | nil => simp [List.takeWhile_cons, hx]
  | cons a nm ih =>
    have hpa : p a = true := hall a (List.mem_cons_self a nm)
    simp only [List.cons_append, List.takeWhile_cons, hpa, if_true]
    rw [ih (fun c hc => hall c (List.mem_cons_of_mem _ hc))]

theorem find?_range_eq (p : Nat → Bool) (n i : Nat) (hi : i < n)
    (hp : p i = true) (hmin : ∀ j, j < i → p j = false) :
    (List.range n).find? p = some i := by
  induction i generalizing p n with
  | zero =>
    cases n with
    | zero => omega
    | succ n =>
      rw [List.range_succ_eq_map]
      rw [List.find?_cons_of_pos _ hp]
  | succ i ih =>
    cases n with
    | zero => omega
    | succ n =>
      rw [List.range_succ_eq_map]
      rw [List.find?_cons_of_neg _ (by simp [hmin 0 (by omega)])]
      rw [List.find?_map]
      have : List.find? (p ∘ Nat.succ) (List.range n) = some i := by
        refine ih (p ∘ Nat.succ) n (by omega) ?_ ?_
        · exact hp
        · intro j hj
          exact hmin (j + 1) (by omega)
      rw [this]
      rfl

/-! ## Claim theorems -/

/-- C1: filename_with_extension returns a name containing the extension
separator verbatim regardless of the project's language; otherwise it returns
the name followed by a dot and the language-resolved extension.  In
particular `model` in a python project yields `model.py`, and
`component.vue` is returned unchanged for every language. -/
theorem c1_filename_with_extension (f : CodeFile) (language : List Char) :
    (f.name.contains '.' = true →
      f.filename_with_extension language = f.name) ∧
    (f.name.contains '.' = false →
      f.filename_with_extension language =
        f.name ++ '.' :: extensionForLanguage language) ∧
    (CodeFile.mk "model".toList none).filename_with_extension "python".toList =
      "model.py".toList ∧
    (CodeFile.mk "component.vue".toList none).filename_with_extension language =
      "component.vue".toList := by
  refine ⟨?_, ?_, by decide, ?_⟩
  · intro h
    have h' : '.' ∈ f.name := by simpa using h
    simp [CodeFile.filename_with_extension, h']
  · intro h
    have h' : '.' ∉ f.name := by simpa using h
    simp [CodeFile.filename_with_extension, h']
  · have hc : ("component.vue".toList).contains '.' = true := by decide
    simp [CodeFile.filename_with_extension, hc]

/-- Witness for C1: a name with an explicit extension is kept verbatim. -/
theorem c1_filename_with_extension_witness :
    (CodeFile.mk "a.b".toList none).filename_with_extension "rust".toList =
      "a.b".toList :=
  (c1_filename_with_extension ⟨"a.b".toList, none⟩ "rust".toList).1 (by decide)

/-- C8: root_project returns the first project in declaration order whose
root flag is true (none when no project has it), sub_projects returns exactly
the projects whose root flag is false in declaration order, and
is_single_project holds iff at least one project has the root flag set. -/
theorem c8_config_accessors (cfg : MoliConfig) :
    (∀ p, cfg.root_project = some p →
      ∃ i, ∃ h : i < cfg.projects.length,
        cfg.projects.get ⟨i, h⟩ = p ∧ p.root = true ∧
        ∀ j, ∀ hj : j < i, (cfg.projects.get ⟨j, hj.trans h⟩).root = false) ∧
    (cfg.root_project = none ↔ ∀ p ∈ cfg.projects, p.root = false) ∧
    cfg.sub_projects = cfg.projects.filter (fun p => !p.root) ∧
    (cfg.is_single_project = true ↔ ∃ p ∈ cfg.projects, p.root = true) := by
  refine ⟨?_, ?_, rfl, ?_⟩
  · intro p hp
    rw [MoliConfig.root_project] at hp
    rw [List.find?_eq_some_iff_getElem] at hp
    obtain ⟨hroot, i, h, hget, hprev⟩ := hp
    refine ⟨i, h, ?_, hroot, ?_⟩
    · rw [List.get_eq_getElem]
      exact hget
    · intro j hj
      have := hprev j hj
      rw [List.get_eq_getElem]
      simpa using this
  · rw [MoliConfig.root_project, List.find?_eq_none]
    constructor
    · intro h p hp
      simpa using h p hp
    · intro h p hp
      simp [h p hp]
  · rw [MoliConfig.is_single_project, MoliConfig.root_project,
      Option.isSome_iff_exists]
    constructor
    · rintro ⟨p, hp⟩
      exact ⟨p, List.mem_of_find?_eq_some hp, List.find?_some hp⟩
    · rintro ⟨p, hmem, hroot⟩
      have : (cfg.projects.find? (fun p => p.root)).isSome = true :=
        List.find?_isSome.mpr ⟨p, hmem, hroot⟩
      exact Option.isSome_iff_exists.mp this

/-- Witness for C8: on a two-project configuration the accessors single out
the root project. -/
theorem c8_config_accessors_witness :
    ∃ i, ∃ h : i <
      (MoliConfig.mk [⟨"a".toList, false, "rust".toList, [], .nil⟩,
        ⟨"b".toList, true, "go".toList, [], .nil⟩]).projects.length,
      (MoliConfig.mk [⟨"a".toList, false, "rust".toList, [], .nil⟩,
        ⟨"b".toList, true, "go".toList, [], .nil⟩]).projects.get ⟨i, h⟩ =
        ⟨"b".toList, true, "go".toList, [], .nil⟩ ∧
      Project.root ⟨"b".toList, true, "go".toList, [], .nil⟩ = true ∧
      ∀ j, ∀ hj : j < i,
        ((MoliConfig.mk [⟨"a".toList, false, "rust".toList, [], .nil⟩,
          ⟨"b".toList, true, "go".toList, [], .nil⟩]).projects.get
            ⟨j, hj.trans h⟩).root = false :=
  (c8_config_accessors
    (MoliConfig.mk [⟨"a".toList, false, "rust".toList, [], .nil⟩,
      ⟨"b".toList, true, "go".toList, [], .nil⟩])).1
    ⟨"b".toList, true, "go".toList, [], .nil⟩ rfl

/-- C5: for input text with exactly one start-marker occurrence followed
later by exactly one end-marker occurrence, splice replaces the substring
strictly between the markers by the new body while preserving every byte
before the start marker and after the end marker, both marker strings
included, byte-for-byte. -/
theorem c5_splice_frame (pre mid post sm em body : List Char)
    (h1 : countOcc sm (pre ++ sm ++ mid ++ em ++ post) = 1)
    (h2 : countOcc em (mid ++ em ++ post) = 1) :
    splice (pre ++ sm ++ mid ++ em ++ post) sm em body =
      .ok (pre ++ sm ++ body ++ em ++ post) :=
  splice_eq_of_decomp pre mid post sm em body h1 h2

/-- Witness for C5 on concrete text: hand-written bytes around the markers
survive, the enclosed region is replaced. -/
theorem c5_splice_frame_witness :
    splice ("A\n".toList ++ "S".toList ++ "x".toList ++ "E".toList ++ "\nB".toList)
      "S".toList "E".toList "yz".toList =
      .ok ("A\n".toList ++ "S".toList ++ "yz".toList ++ "E".toList ++ "\nB".toList) :=
  c5_splice_frame "A\n".toList "x".toList "\nB".toList "S".toList "E".toList
    "yz".toList (by decide) (by decide)

/-- C6: an existing managed file whose content has no exactly-one well-placed
marker pair (zero pairs, more than one pair, or the end marker only before
the start marker) makes the materializer's splice fail with MarkerMismatch,
and the filesystem — hence the file's content — is returned unchanged, with
no partial or guessed edit. -/
theorem c6_marker_mismatch (fs : FS) (op : Op) (c : List Char)
    (hcl : classify op.lang op.path = .managedAggregator)
    (hex : lookupFS fs op.path = some c)
    (hbad : ¬ wellFormedMarkers (startMarker op.lang) (endMarker op.lang) c) :
    materializeOp fs op = (fs, some .markerMismatch) := by
  unfold materializeOp
  simp only [hcl, hex]
  rw [splice_not_wellFormed hbad]

/-- Witness for C6: a managed rust file with no markers at all is left
unchanged and the call fails with MarkerMismatch. -/
theorem c6_marker_mismatch_witness :
    materializeOp [("./src/mod.rs".toList, "no markers".toList)]
      ⟨"./src/mod.rs".toList, .exports [], .rust⟩ =
      ([("./src/mod.rs".toList, "no markers".toList)], some .markerMismatch) := by
  refine c6_marker_mismatch _ _ "no markers".toList (by decide) (by decide) ?_
  rintro ⟨pre, mid, post, hc, h1, h2⟩
  exact absurd h1 (by decide)

/-- C2: a project with an unknown language tag makes generation fail with
UnsupportedLanguage; the check runs once per project before any filesystem
mutation, so the filesystem is returned unchanged and no fallback (such as a
substituted default extension) is applied. -/
theorem c2_unsupported_language (cfg : MoliConfig) (fs : FS) (proj : Project)
    (hmem : proj ∈ cfg.projects)
    (hunk : languageProfile proj.lang = none) :
    generate cfg fs = (fs, some .unsupportedLanguage) := by
  unfold generate
  rw [profilesOf_none hmem hunk]

/-- Witness for C2: a `cobol`-tagged project aborts generation up front. -/
theorem c2_unsupported_language_witness :
    generate (MoliConfig.mk [⟨"app".toList, true, "cobol".toList, [], .nil⟩]) [] =
      ([], some .unsupportedLanguage) :=
  c2_unsupported_language _ [] ⟨"app".toList, true, "cobol".toList, [], .nil⟩
    (List.Mem.head _) (by decide)

/-- C4: a path classified Protected that already exists with arbitrary
content receives no write during a generation run and its bytes are
unchanged afterwards, whatever the configuration now declares for it. -/
theorem c4_protected_preserved (cfg : MoliConfig) (fs : FS) (p c : List Char)
    (hc : lookupFS fs p = some c)
    (hcl : ∀ pps, profilesOf cfg.projects = some pps →
      ∀ op ∈ planConfig pps, op.path = p →
        classify op.lang op.path = .protectedTier) :
    lookupFS (generate cfg fs).1 p = some c := by
  unfold generate
  cases hpp : profilesOf cfg.projects with
  | none => exact hc
  | some pps =>
    show lookupFS (if (aggPaths (planConfig pps)).Nodup then
        exec fs (planConfig pps) else (fs, some GenError.nameCollision)).1 p = some c
    by_cases hnd : (aggPaths (planConfig pps)).Nodup
    · rw [if_pos hnd]
      refine exec_preserve hc ?_
      intro op hop hpath
      rw [hcl pps hpp op hop hpath]
      simp
    · rw [if_neg hnd]
      exact hc

def projW4 : Project :=
  ⟨"app".toList, true, "rust".toList, [],
    .cons (.mk "src".toList none .nil [⟨"main".toList, none⟩]) .nil⟩

def cfgW4 : MoliConfig := ⟨[projW4]⟩

/-- Witness for C4: a pre-existing `./src/main.rs` with hand-written content
keeps its bytes across a run. -/
theorem c4_protected_preserved_witness :
    lookupFS (generate cfgW4
      [("./src/main.rs".toList, "my implementation\n".toList)]).1
      "./src/main.rs".toList = some "my implementation\n".toList := by
  refine c4_protected_preserved cfgW4 _ _ _ (by decide) ?_
  intro pps hpp
  have hpp0 : profilesOf cfgW4.projects = some [(projW4, Lang.rust)] := rfl
  rw [hpp0] at hpp
  have he : pps = [(projW4, Lang.rust)] := (Option.some.inj hpp).symm
  subst he
  decide

/-- C7: for a directory with declared children, the plan contains exactly one
aggregator call carrying the directory's combined child list in declaration
order (second conjunct), and after a successful run the marker-enclosed
region of any aggregator target holds exactly the rendered export lines of
its child list — one line per child, in order, no more, no fewer — whatever
the prior filesystem content outside the markers and however many runs
preceded (first conjunct). -/
theorem c7_aggregator_region :
    (∀ cfg fs fs' pps (op : Op) l,
      profilesOf cfg.projects = some pps →
      generate cfg fs = (fs', none) →
      op ∈ planConfig pps →
      op.payload = .exports l →
      classify op.lang op.path = .managedAggregator →
      ∃ pre post, lookupFS fs' op.path =
        some (pre ++ startMarker op.lang ++ renderExports op.lang l ++
          endMarker op.lang ++ post)) ∧
    (∀ lg langTag base n v t f ms,
      (⟨base ++ slash ++ n ++ slash ++ aggregatorFilename lg,
        .exports (childItems t f), lg⟩ : Op) ∈
        walkModules lg langTag base (.cons (.mk n v t f) ms)) := by
  constructor
  · intro cfg fs fs' pps op l hpp hgen hop hpay hcl
    unfold generate at hgen
    simp only [hpp] at hgen
    by_cases hnd : (aggPaths (planConfig pps)).Nodup
    · rw [if_pos hnd] at hgen
      have hpost := exec_post hnd hgen op hop
      unfold opPost at hpost
      rw [hcl] at hpost
      rw [hpay] at hpost
      obtain ⟨pre, post, hc⟩ := hpost
      exact ⟨pre, post, hc⟩
    · rw [if_neg hnd] at hgen
      simp at hgen
  · intro lg langTag base n v t f ms
    simp [walkModules]

def projW7 : Project :=
  ⟨"app".toList, true, "rust".toList, [],
    .cons (.mk "src".toList none .nil [⟨"main".toList, none⟩]) .nil⟩

def cfgW7 : MoliConfig := ⟨[projW7]⟩

/-- Witness for C7: after a run from an empty filesystem, `./src/mod.rs`
holds exactly the export line for `main` between the markers. -/
theorem c7_aggregator_region_witness :
    ∃ pre post,
      lookupFS (generate cfgW7 []).1 "./src/mod.rs".toList =
        some (pre ++ startMarker .rust ++
          renderExports .rust [⟨"main".toList, false, none⟩] ++
          endMarker .rust ++ post) :=
  c7_aggregator_region.1 cfgW7 [] (generate cfgW7 []).1 [(projW7, Lang.rust)]
    ⟨"./src/mod.rs".toList, .exports [⟨"main".toList, false, none⟩], .rust⟩
    [⟨"main".toList, false, none⟩]
    rfl (by decide) (by decide) rfl (by decide)

/-- C3: generation is idempotent — a second run on the unchanged
configuration over the filesystem produced by a successful first run leaves
every file's content byte-identical. -/
theorem c3_generate_idempotent (cfg : MoliConfig) (fs fs1 fs2 : FS)
    (h1 : generate cfg fs = (fs1, none))
    (h2 : generate cfg fs1 = (fs2, none)) :
    ∀ p, lookupFS fs2 p = lookupFS fs1 p := by
  unfold generate at h1 h2
  cases hpp : profilesOf cfg.projects with
  | none =>
    simp only [hpp] at h1
    simp at h1
  | some pps =>
    simp only [hpp] at h1 h2
    by_cases hnd : (aggPaths (planConfig pps)).Nodup
    · rw [if_pos hnd] at h1 h2
      have hpost := exec_post hnd h1
      exact exec_twice hpost (fun q => rfl) h2
    · rw [if_neg hnd] at h1
      simp at h1

def projW3 : Project :=
  ⟨"app".toList, true, "rust".toList, [],
    .cons (.mk "src".toList none .nil [⟨"main".toList, none⟩]) .nil⟩

def cfgW3 : MoliConfig := ⟨[projW3]⟩

/-- Witness for C3: the generated aggregator file is byte-identical after a
second run on the unchanged configuration. -/
theorem c3_generate_idempotent_witness :
    lookupFS (generate cfgW3 ((generate cfgW3 []).1)).1 "./src/mod.rs".toList =
      lookupFS (generate cfgW3 []).1 "./src/mod.rs".toList :=
  c3_generate_idempotent cfgW3 [] ((generate cfgW3 []).1)
    ((generate cfgW3 ((generate cfgW3 []).1)).1)
    (by decide) (by decide) "./src/mod.rs".toList

/-- C9 counterexample: on a moli.yml containing `- name: app_2147483647`,
the i32 counter update `num + 1` overflows, so the program does not return
the claimed `app_2147483648`: the release build yields `app_-2147483648`
(a debug build panics), refuting the claim as stated at this input. -/
theorem c9_overflow_counterexample :
    generate_sequential_project_name (some "- name: app_2147483647\n".toList) =
      "app_-2147483648".toList ∧
    generate_sequential_project_name (some "- name: app_2147483647\n".toList) ≠
      "app_".toList ++
        intChars (claimedCounter (some "- name: app_2147483647\n".toList)) := by
  constructor
  · decide
  · decide

/-- C9 (amended): provided every k of a `- name: app_k` line that parses as
an i32 stays below 2147483647 (so the counter increment cannot overflow),
generate_sequential_project_name returns "app_" followed by one more than
the largest such k at least 1, and "app_1" when moli.yml does not exist or
no such line exists. -/
theorem c9_generate_sequential_project_name (content : Option (List Char))
    (hbound : ∀ s, content = some s → ∀ k ∈ appNums s, k < 2147483647) :
    generate_sequential_project_name content =
      "app_".toList ++ intChars (claimedCounter content) := by
  cases content with
  | none => rfl
  | some s =>
    show "app_".toList ++ intChars (seqFold (appNums s) 1) =
      "app_".toList ++ intChars (claimedCounter (some s))
    have hb : ∀ n ∈ appNums s, -2147483648 ≤ n ∧ n < 2147483647 :=
      fun n hn => ⟨(appNums_bounds hn).1, hbound s rfl n hn⟩
    have hc : seqFold (appNums s) 1 = claimedCounter (some s) := by
      show seqFold (appNums s) 1 =
        (if (appNums s).filter (fun k => 1 ≤ k) = [] then 1
          else 1 + maxOf ((appNums s).filter (fun k => 1 ≤ k)))
      rw [seqFold_eq_max (appNums s) hb 1 (le_refl 1),
        max_eq_right (one_le_maxFold _), maxFold_eq_claimed]
    rw [hc]

/-- Witness for C9: two app_k lines and an unrelated line give app_8; a
missing file gives app_1. -/
theorem c9_generate_sequential_project_name_witness :
    generate_sequential_project_name
      (some "- name: app_3\n- name: app_7\n- name: other\n".toList) =
      "app_8".toList ∧
    generate_sequential_project_name none = "app_1".toList := by
  constructor
  · have h := c9_generate_sequential_project_name
      (some "- name: app_3\n- name: app_7\n- name: other\n".toList)
      (by intro s hs k hk; injection hs with hs'; rw [← hs'] at hk; revert k hk; decide)
    rw [h]
    decide
  · have h := c9_generate_sequential_project_name none (by intro s hs; cases hs)
    rw [h]
    decide

/-- C10: appending to an existing moli.yml rewrites only the first
`- name: <anything>` line immediately followed by a `  root: true` line into
`- name: .` (dropping the root line); every other byte of the existing
content is preserved, and the new project's YAML is appended at the end. -/
theorem c10_append_first_root_block
    (projectName language pre nm post content : List Char)
    (hcontent : content = pre ++ "- name: ".toList ++ nm ++
      "\n  root: true\n".toList ++ post)
    (hnm1 : nm ≠ []) (hnm2 : '\n' ∉ nm)
    (hpre : pre = [] ∨ pre.getLast? = some '\n')
    (hfirst : ∀ j, j < pre.length → blockAt content j = false) :
    append_to_existing_moli_yml projectName language content =
      pre ++ "- name: .\n".toList ++ post ++
        newProjectYaml projectName language := by
  have hP8 : ("- name: ".toList).length = 8 := rfl
  have hR14 : ("\n  root: true\n".toList).length = 14 := rfl
  have hview1 : content =
      pre ++ ("- name: ".toList ++ (nm ++ ("\n  root: true\n".toList ++ post))) := by
    rw [hcontent]
    simp [List.append_assoc]
  have hview2 : content =
      (pre ++ "- name: ".toList) ++ (nm ++ ("\n  root: true\n".toList ++ post)) := by
    rw [hcontent]
    simp [List.append_assoc]
  have hview3 : content =
      ((pre ++ "- name: ".toList) ++ nm) ++ ("\n  root: true\n".toList ++ post) := by
    rw [hcontent]
    simp [List.append_assoc]
  have hdrop0 : content.drop pre.length =
      "- name: ".toList ++ (nm ++ ("\n  root: true\n".toList ++ post)) := by
    rw [hview1]
    exact List.drop_left _ _
  have htake8 : (content.drop pre.length).take 8 = "- name: ".toList := by
    rw [hdrop0]
    exact List.take_left' hP8
  have hdrop8 : content.drop (pre.length + 8) =
      nm ++ ("\n  root: true\n".toList ++ post) := by
    rw [hview2]
    exact List.drop_left' (by simp only [List.length_append, hP8])
  have hrestnm : nameRestAt content pre.length = nm := by
    unfold nameRestAt
    rw [hdrop8]
    have hsplit : nm ++ ("\n  root: true\n".toList ++ post) =
        nm ++ '\n' :: ("  root: true\n".toList ++ post) := rfl
    rw [hsplit]
    refine takeWhile_append_stop nm '\n' _ ?_ (by simp)
    intro c hc
    have hcne : c ≠ '\n' := fun he => hnm2 (he ▸ hc)
    simpa using hcne
  have hdropname : content.drop (pre.length + 8 + nm.length) =
      "\n  root: true\n".toList ++ post := by
    rw [hview3]
    exact List.drop_left' (by simp only [List.length_append, hP8])
  have htake14 : (content.drop (pre.length + 8 + nm.length)).take 14 =
      "\n  root: true\n".toList := by
    rw [hdropname]
    exact List.take_left' hR14
  have hstart : lineStartAt content pre.length = true := by
    unfold lineStartAt
    rcases hpre with hpe | hpl
    · subst hpe
      simp
    · have hne : pre ≠ [] := by
        intro h
        rw [h] at hpl
        simp at hpl
      have hlt : pre.length - 1 < pre.length := by
        have := List.length_pos.mpr hne
        omega
      have hget : content[pre.length - 1]? = pre[pre.length - 1]? := by
        rw [hview1, List.getElem?_append, if_pos hlt]
      have hlast : pre[pre.length - 1]? = some '\n' := by
        rw [← List.getLast?_eq_getElem?]
        exact hpl
      rw [hget, hlast]
      simp
  have hblock : blockAt content pre.length = true := by
    unfold blockAt
    rw [hstart, htake8, hrestnm, htake14]
    simp [hnm1]
  have hlenlt : pre.length < content.length + 1 := by
    rw [hcontent]
    simp only [List.length_append, hP8, hR14]
    omega
  have hfind : findBlock content = some pre.length := by
    unfold findBlock
    exact find?_range_eq (blockAt content) (content.length + 1) pre.length
      hlenlt hblock hfirst
  have htakepre : content.take pre.length = pre := by
    rw [hview1]
    exact List.take_left _ _
  have hdropall : content.drop (pre.length + 8 + nm.length + 14) = post := by
    rw [hcontent]
    refine List.drop_left' ?_
    simp only [List.length_append, hP8, hR14]
  unfold append_to_existing_moli_yml replace_first_project_name_with_current_dir
  simp only [hfind]
  rw [hrestnm, htakepre, hdropall]

/-- Witness for C10: a two-line root block at the very start of the file is
rewritten and the trailing line is preserved. -/
theorem c10_append_first_root_block_witness :
    append_to_existing_moli_yml "app_2".toList "rust".toList
      "- name: app_1\n  root: true\n  lang: rust\n".toList =
      "- name: .\n".toList ++ "  lang: rust\n".toList ++
        newProjectYaml "app_2".toList "rust".toList := by
  have h := c10_append_first_root_block "app_2".toList "rust".toList []
    "app_1".toList "  lang: rust\n".toList
    "- name: app_1\n  root: true\n  lang: rust\n".toList
    (by decide) (by decide) (by decide) (Or.inl rfl)
    (fun j hj => absurd hj (by simp))
  simpa using h

end MoliVerify
